import Mathlib

/-!
Verification of the lumina (celestia-node-rs) light-node sources against
their specification.  Shallow embedding: bytes are `Nat` values below 256
inside `List Nat`, fallible Rust functions return `Except`, and each
definition mirrors the Rust function of the same name.
-/

namespace CelestiaTypes

/-- Errors of the `celestia-types` crate that the embedded functions can
produce (variants of the crate's `Error` enum). -/
inductive Error where
  | invalidShareSize (len : Nat)
  | missingProof
deriving DecidableEq, Repr

/-- Modelled from the spec: `appconsts::SHARE_SIZE` lives in the
`celestia-types` consts module, which is not among the provided sources.
The spec fixes the network-wide constant to 512. -/
def SHARE_SIZE : Nat := 512

/-- Modelled from the spec: `NS_SIZE` of the nmt module is not among the
provided sources; the spec only says the namespace is "exactly the first
`NS_SIZE` bytes" of a share.  We use the repository's value 29; every
theorem below only relies on `NS_SIZE ≤ SHARE_SIZE`. -/
def NS_SIZE : Nat := 29

/-- Modelled from the spec: `Namespace::from_raw` of the nmt module is not
among the provided sources.  The spec states a share undergoes "no other
validation (namespace is exactly the first `NS_SIZE` bytes, non-parsed)",
so the conversion keeps the raw bytes and never fails. -/
def Namespace.from_raw (bytes : List Nat) : Except Error (List Nat) :=
  .ok bytes

/-- `Share` of `types/src/share.rs`: namespace bytes plus payload bytes. -/
structure Share where
  ns : List Nat
  data : List Nat
deriving DecidableEq, Repr

/-- `Share::new` of `types/src/share.rs`: exact-length check against
`SHARE_SIZE`, then `split_at(NS_SIZE)` into namespace and data. -/
def Share.new (bytes : List Nat) : Except Error Share :=
  if bytes.length ≠ SHARE_SIZE then
    .error (.invalidShareSize bytes.length)
  else
    match Namespace.from_raw (bytes.take NS_SIZE) with
    | .error e => .error e
    | .ok ns => .ok { ns := ns, data := bytes.drop NS_SIZE }

/-- `Share::to_vec` of `types/src/share.rs`: namespace bytes followed by
the payload bytes. -/
def Share.to_vec (s : Share) : List Nat :=
  s.ns ++ s.data

/-- Modelled from the spec: the raw protobuf form of a namespace proof
(`shrex.nd.Proof`) is not among the provided sources; its contents play
no role in the row conversions of `share.rs`, which only move it through
a conversion, so it is embedded as a wrapped tag. -/
structure RawProof where
  tag : Nat
deriving DecidableEq, Repr

/-- Modelled from the spec: the nmt `NamespaceProof` type is not among
the provided sources; like `RawProof` it is embedded as a wrapped tag.
Its fallible conversion from `RawProof` (the `TryInto::try_into` at
`share.rs:74`) is likewise absent, so the row decoding below is
parameterized over an arbitrary conversion function, assuming nothing
about when it succeeds or fails. -/
structure NamespaceProof where
  tag : Nat
deriving DecidableEq, Repr

/-- `Row` of the shrex-nd protobuf (`RawRow`): raw share byte vectors and
an optional raw proof. -/
structure RawRow where
  shares : List (List Nat)
  proof : Option RawProof
deriving DecidableEq, Repr

/-- `NamespacedRow` of `types/src/share.rs`. -/
structure NamespacedRow where
  shares : List Share
  proof : NamespaceProof
deriving DecidableEq, Repr

/-- The `value.shares.into_iter().map(Share::new).collect::<Result<_>>()`
step of `TryFrom<RawRow> for NamespacedRow`: decode every share, stopping
at the first failure. -/
def collectShares : List (List Nat) → Except Error (List Share)
  | [] => .ok []
  | b :: rest =>
    match Share.new b with
    | .error e => .error e
    | .ok s =>
      match collectShares rest with
      | .error e => .error e
      | .ok l => .ok (s :: l)

/-- `TryFrom<RawRow> for NamespacedRow` of `types/src/share.rs`: the
shares are decoded first (propagating the first share error), then
`value.proof.map(TryInto::try_into).transpose()?.ok_or(MissingProof)?`
converts the proof — a conversion error on a present proof propagates,
an absent proof is `MissingProof`.  `convertProof` stands for the
fallible nmt proof conversion, which is not among the provided sources
(modelled from the spec as an arbitrary function). -/
def NamespacedRow.try_from (convertProof : RawProof → Except Error NamespaceProof)
    (value : RawRow) : Except Error NamespacedRow :=
  match collectShares value.shares with
  | .error e => .error e
  | .ok shares =>
    match value.proof with
    | none => .error .missingProof
    | some rp =>
      match convertProof rp with
      | .error e => .error e
      | .ok p => .ok { shares := shares, proof := p }

/-- `From<NamespacedRow> for RawRow` of `types/src/share.rs`:
`proofToRaw` stands for the infallible `value.proof.into()` conversion
(`share.rs:86`), which is not among the provided sources (modelled from
the spec as an arbitrary function). -/
def RawRow.from_namespaced_row (proofToRaw : NamespaceProof → RawProof)
    (value : NamespacedRow) : RawRow :=
  { shares := value.shares.map Share.to_vec, proof := some (proofToRaw value.proof) }

end CelestiaTypes

namespace HeaderEx

/-- Modelled from the spec: the protobuf base-128 varint encoding used by
the prost-generated `HeaderRequest` codec (the generated code and the
vendored `header_request.proto` are not among the provided sources).
Little-endian base-128 digits, high bit marking continuation. -/
def encodeVarint (n : Nat) : List Nat :=
  if h : n < 128 then [n]
  else (n % 128 + 128) :: encodeVarint (n / 128)
termination_by n
decreasing_by
  exact Nat.div_lt_self (by omega) (by omega)

/-- Modelled from the spec: varint decoding, returning the value and the
unread remainder of the input. -/
def decodeVarint : List Nat → Option (Nat × List Nat)
  | [] => none
  | b :: rest =>
    if b < 128 then some (b, rest)
    else
      match decodeVarint rest with
      | none => none
      | some (v, rest') => some ((b - 128) + 128 * v, rest')

/-- Varint decoding consumes at least one byte of its input. -/
theorem decodeVarint_consumes (l : List Nat) (v : Nat) (r : List Nat)
    (h : decodeVarint l = some (v, r)) : r.length < l.length := by
  induction l generalizing v r with
  | nil => simp [decodeVarint] at h
  | cons b rest ih =>
    simp only [decodeVarint] at h
    by_cases hb : b < 128
    · simp [hb] at h
      simp [← h.2]
    · simp only [hb, if_false] at h
      cases hrec : decodeVarint rest with
      | none => simp [hrec] at h
      | some p =>
        obtain ⟨v', r'⟩ := p
        simp [hrec] at h
        have := ih v' r' hrec
        simp [← h.2]
        omega

/-- The `data` oneof of the `HeaderRequest` wire message: an explicit
starting height, or the "give me the current head" marker. -/
inductive RequestData where
  | origin (height : Nat)
  | head
deriving DecidableEq, Repr

/-- The `HeaderRequest` wire message: `{ amount: uint, data: Origin(height) | Head }`. -/
structure HeaderRequest where
  amount : Nat
  data : Option RequestData
deriving DecidableEq, Repr

/-- The all-defaults message that protobuf decoding starts from. -/
def defaultRequest : HeaderRequest :=
  { amount := 0, data := none }

/-- Modelled from the spec: protobuf encoding of the `data` oneof
(`Origin` is field 1, `Head` field 2, both varint-typed; a set oneof
field is always written). -/
def encodeData : Option RequestData → List Nat
  | none => []
  | some (.origin h) => 8 :: encodeVarint h
  | some .head => 16 :: encodeVarint 1

/-- Modelled from the spec: protobuf encoding of the `amount` field
(field 3, varint; proto3 omits a zero value). -/
def encodeAmount (a : Nat) : List Nat :=
  if a = 0 then [] else 24 :: encodeVarint a

/-- Modelled from the spec: `HeaderRequest::encode_length_delimited_to_vec`
of prost — the message body preceded by its varint-encoded byte length. -/
def encodeLengthDelimited (r : HeaderRequest) : List Nat :=
  let body := encodeData r.data ++ encodeAmount r.amount
  encodeVarint body.length ++ body

/-- Modelled from the spec: the protobuf field-merging loop, one
iteration per encoded field.  Each field key is a varint
`field_number << 3 | wire_type`; known fields overwrite the accumulator
(last occurrence wins); this message has only varint-typed fields.  The
`fuel` argument only bounds the number of iterations for structural
recursion: every iteration consumes at least two bytes, so the
`bytes.length` fuel supplied by `parseFields` is never exhausted. -/
def parseFieldsAux : Nat → List Nat → HeaderRequest → Option HeaderRequest
  | _, [], acc => some acc
  | 0, _ :: _, _ => none
  | fuel + 1, b :: rest0, acc =>
    match decodeVarint (b :: rest0) with
    | none => none
    | some (key, rest) =>
      if key % 8 = 0 then
        match decodeVarint rest with
        | none => none
        | some (v, rest2) =>
          if key / 8 = 1 then parseFieldsAux fuel rest2 { acc with data := some (.origin v) }
          else if key / 8 = 2 then parseFieldsAux fuel rest2 { acc with data := some .head }
          else if key / 8 = 3 then parseFieldsAux fuel rest2 { acc with amount := v }
          else none
      else none

/-- The field-merging loop over a whole buffer. -/
def parseFields (bytes : List Nat) (acc : HeaderRequest) : Option HeaderRequest :=
  parseFieldsAux bytes.length bytes acc

/-- Modelled from the spec: `HeaderRequest::decode_length_delimited` of
prost — read the length varint, require that many bytes, merge the fields
of exactly that slice (trailing bytes are left unread). -/
def decodeLengthDelimited (bytes : List Nat) : Option HeaderRequest :=
  match decodeVarint bytes with
  | none => none
  | some (len, rest) =>
    if len ≤ rest.length then parseFields (rest.take len) defaultRequest
    else none

/-- `REQUEST_SIZE_MAXIMUM` of `node/src/exchange.rs`. -/
def REQUEST_SIZE_MAXIMUM : Nat := 1024

/-- `RESPONSE_SIZE_MAXIMUM` of `node/src/exchange.rs`. -/
def RESPONSE_SIZE_MAXIMUM : Nat := 10 * 1024 * 1024

/-- `HeaderCodec::read_request` of `node/src/exchange.rs`:
`io.take(REQUEST_SIZE_MAXIMUM).read_to_end(..)` truncates the incoming
stream at the cap, then the bytes are decoded length-delimited. -/
def read_request (stream : List Nat) : Option HeaderRequest :=
  decodeLengthDelimited (stream.take REQUEST_SIZE_MAXIMUM)

/-- `HeaderCodec::write_request` of `node/src/exchange.rs`: write the
length-delimited encoding of the request. -/
def write_request (req : HeaderRequest) : List Nat :=
  encodeLengthDelimited req

/-- `exchange_behaviour` of `node/src/exchange.rs` builds the protocol
identifier as `format!("/{network}/header-ex/v0.0.3")`. -/
def exchange_protocol_id (network : String) : String :=
  "/" ++ network ++ "/header-ex/v0.0.3"

end HeaderEx

namespace Networks

/-- The core `lumina_node::network::Network` enum. -/
inductive Network where
  | Mainnet
  | Arabica
  | Mocha
  | Private
deriving DecidableEq, Repr

/-- `ArgNetwork` of `cli/src/common.rs`. -/
inductive ArgNetwork where
  | Mainnet
  | Arabica
  | Mocha
  | Private
deriving DecidableEq, Repr

/-- The wasm binding `Network` enum of `node-wasm/src/utils.rs`. -/
inductive WasmNetwork where
  | Mainnet
  | Arabica
  | Mocha
  | Private
deriving DecidableEq, Repr

/-- `From<ArgNetwork> for Network` of `cli/src/common.rs`. -/
def Network.from_arg : ArgNetwork → Network
  | .Mainnet => .Mainnet
  | .Arabica => .Arabica
  | .Mocha => .Mocha
  | .Private => .Private

/-- `From<Network> for ArgNetwork` of `cli/src/common.rs`. -/
def ArgNetwork.from_core : Network → ArgNetwork
  | .Mainnet => .Mainnet
  | .Arabica => .Arabica
  | .Mocha => .Mocha
  | .Private => .Private

/-- `From<Network> for network::Network` of `node-wasm/src/utils.rs`
(wasm enum to core enum). -/
def Network.from_wasm : WasmNetwork → Network
  | .Mainnet => .Mainnet
  | .Arabica => .Arabica
  | .Mocha => .Mocha
  | .Private => .Private

/-- `From<network::Network> for Network` of `node-wasm/src/utils.rs`
(core enum to wasm enum). -/
def WasmNetwork.from_core : Network → WasmNetwork
  | .Mainnet => .Mainnet
  | .Arabica => .Arabica
  | .Mocha => .Mocha
  | .Private => .Private

end Networks

namespace WasmUtils

/-- One component of a libp2p multiaddress, restricted to the three
classes `resolve_dnsaddr_multiaddress` of `node-wasm/src/utils.rs`
distinguishes: a `/p2p/<peer-id>` component, a `/dnsaddr/<name>`
component, and everything else. -/
inductive MaProtocol where
  | p2p (peer : Nat)
  | dnsaddr (name : String)
  | other (tag : Nat)
deriving DecidableEq, Repr

/-- A multiaddress as its component list. -/
abbrev Multiaddr := List MaProtocol

/-- `get_peer_id` of `node-wasm/src/utils.rs`: first `/p2p/` component. -/
def get_peer_id (ma : Multiaddr) : Option Nat :=
  ma.findSome? fun p =>
    match p with
    | .p2p peer => some peer
    | _ => none

/-- `get_dnsaddr` of `node-wasm/src/utils.rs`: first `/dnsaddr/`
component. -/
def get_dnsaddr (ma : Multiaddr) : Option String :=
  ma.findSome? fun p =>
    match p with
    | .dnsaddr name => some name
    | _ => none

/-- The errors `resolve_dnsaddr_multiaddress` can produce. -/
inductive UtilsError where
  | peerIdNotFound
deriving DecidableEq, Repr

/-- One `answer` entry of a dns-over-https response (`DohEntry` of
`node-wasm/src/utils.rs`): a record type and its TXT data. -/
structure DohEntry where
  rtype : Nat
  data : String
deriving Repr

/-- The TXT record type constant of `resolve_dnsaddr_multiaddress`. -/
def TXT_TYPE : Nat := 16

/-- `resolve_dnsaddr_multiaddress` of `node-wasm/src/utils.rs`, embedded
as a pure function.  Modelled from the spec where the sources end: the
dns-over-https fetch is passed in as the already received `answer` list,
and `parseEntryData` stands for the composed fallible
json-string-decode / `split_once('=')` / multiaddr-parse pipeline
(serde_json and the libp2p multiaddr text parser are external to the
provided sources).  An address without a dnsaddr component is returned
unchanged; a dnsaddr address without a peer id is an error before any
resolution; resolved TXT entries are kept only when they carry the same
peer id as the input. -/
def resolve_dnsaddr_multiaddress (parseEntryData : String → Option Multiaddr)
    (answer : List DohEntry) (ma : Multiaddr) :
    Except UtilsError (List Multiaddr) :=
  match get_dnsaddr ma with
  | none => .ok [ma]
  | some _ =>
    match get_peer_id ma with
    | none => .error .peerIdNotFound
    | some peer_id =>
      .ok <| answer.filterMap fun entry =>
        if entry.rtype = TXT_TYPE then
          match parseEntryData entry.data with
          | none => none
          | some ma' => if get_peer_id ma' = some peer_id then some ma' else none
        else none

end WasmUtils

namespace NodeModel

/-- Outcome of verifying one sampled share's proof against the header's
committed root. -/
inductive ProofOutcome where
  | valid
  | rootMismatch
  | unavailable
deriving DecidableEq, Repr

/-- Inputs driving the node model: Synchronizer fetch work, DASer sample
work, and a peer's proof-verification outcome for one coordinate. -/
inductive NodeInput where
  | fetchRequest (height : Nat)
  | sampleRequest (row : Nat) (column : Nat)
  | proofResult (row : Nat) (column : Nat) (peer : Nat) (outcome : ProofOutcome)
deriving DecidableEq, Repr

/-- Observable outputs of the node model: fetch activity, sample
activity, and the `NetworkCompromised` event. -/
inductive NodeOutput where
  | fetchActivity (height : Nat)
  | sampleActivity (row : Nat) (column : Nat)
  | networkCompromised
deriving DecidableEq, Repr

/-- State of the node model: for each coordinate with a root-mismatching
proof, the peer that produced it, plus the halted flag. -/
structure NodeState where
  badProofs : List ((Nat × Nat) × Nat)
  halted : Bool
deriving DecidableEq, Repr

/-- The initial, healthy node state. -/
def initState : NodeState :=
  { badProofs := [], halted := false }

/-- Modelled from the spec: the compromise handling of the Synchronizer
and DASer (the lumina-node syncer and daser modules are not among the
provided sources).  Per the spec, a root-mismatching proof is retried
against a different peer; a second structurally valid, root-mismatching
proof for the same coordinate from an independent peer emits
`NetworkCompromised` and halts both subsystems, after which no fetch or
sample activity is produced. -/
def step (s : NodeState) (i : NodeInput) : NodeState × List NodeOutput :=
  if s.halted then (s, [])
  else
    match i with
    | .fetchRequest h => (s, [.fetchActivity h])
    | .sampleRequest r c => (s, [.sampleActivity r c])
    | .proofResult r c p outcome =>
      match outcome with
      | .valid => (s, [])
      | .unavailable => (s, [])
      | .rootMismatch =>
        match s.badProofs.lookup (r, c) with
        | some p' =>
          if p' = p then (s, [])
          else ({ s with halted := true }, [.networkCompromised])
        | none => ({ s with badProofs := ((r, c), p) :: s.badProofs }, [])

/-- Run the node model over an input trace, concatenating the outputs. -/
def run (s : NodeState) : List NodeInput → List NodeOutput
  | [] => []
  | i :: rest =>
    let (s', out) := step s i
    out ++ run s' rest

end NodeModel


/-! ## Helper lemmas on the share model -/

namespace CelestiaTypes

/-- `Share.new` fails exactly on a wrong length, carrying that length. -/
theorem share_new_eq_error (bytes : List Nat) (h : bytes.length ≠ SHARE_SIZE) :
    Share.new bytes = .error (.invalidShareSize bytes.length) := by
  simp [Share.new, h]

/-- `Share.new` on a correctly sized input splits it at `NS_SIZE`. -/
theorem share_new_eq_ok (bytes : List Nat) (h : bytes.length = SHARE_SIZE) :
    Share.new bytes = .ok { ns := bytes.take NS_SIZE, data := bytes.drop NS_SIZE } := by
  simp [Share.new, h, Namespace.from_raw]

/-- A successful `Share.new` is the split at `NS_SIZE` of an input of
length `SHARE_SIZE`. -/
theorem share_new_ok_inv (bytes : List Nat) (s : Share)
    (h : Share.new bytes = .ok s) :
    bytes.length = SHARE_SIZE
      ∧ s = { ns := bytes.take NS_SIZE, data := bytes.drop NS_SIZE } := by
  by_cases hl : bytes.length = SHARE_SIZE
  · rw [share_new_eq_ok bytes hl] at h
    exact ⟨hl, by injection h with h; exact h.symm⟩
  · rw [share_new_eq_error bytes hl] at h
    exact absurd h (by simp)

/-- Re-encoding a successfully decoded share reproduces its input. -/
theorem share_new_to_vec (bytes : List Nat) (s : Share)
    (h : Share.new bytes = .ok s) : s.to_vec = bytes := by
  obtain ⟨hl, hs⟩ := share_new_ok_inv bytes s h
  subst hs
  simp [Share.to_vec]

end CelestiaTypes

/-! ## Claims C1 - C3 -/

open CelestiaTypes in
/-- C1: a byte vector whose length differs from `SHARE_SIZE` decodes to
the `InvalidShareSize` error carrying the offending length; in the source
the error return precedes the namespace parse and any proof handling, so
nothing further is attempted on the input. -/
theorem c1_invalid_share_size (bytes : List Nat)
    (h : bytes.length ≠ SHARE_SIZE) :
    Share.new bytes = .error (.invalidShareSize bytes.length) :=
  share_new_eq_error bytes h

open CelestiaTypes in
/-- C1 witness: lengths 511 and 513 both fail with their own length in
the error. -/
theorem c1_invalid_share_size_witness :
    Share.new (List.replicate 511 0) = .error (.invalidShareSize 511)
      ∧ Share.new (List.replicate 513 0) = .error (.invalidShareSize 513) := by
  constructor
  · have h := c1_invalid_share_size (List.replicate 511 0)
      (by rw [List.length_replicate]; decide)
    rw [List.length_replicate] at h
    exact h
  · have h := c1_invalid_share_size (List.replicate 513 0)
      (by rw [List.length_replicate]; decide)
    rw [List.length_replicate] at h
    exact h

open CelestiaTypes in
/-- C2: a byte vector of length exactly `SHARE_SIZE` decodes successfully
with no other validation; the namespace is exactly the first `NS_SIZE`
bytes and the data exactly the remaining bytes. -/
theorem c2_share_new_valid (bytes : List Nat)
    (h : bytes.length = SHARE_SIZE) :
    Share.new bytes = .ok { ns := bytes.take NS_SIZE, data := bytes.drop NS_SIZE } :=
  share_new_eq_ok bytes h

open CelestiaTypes in
/-- C2 witness: a concrete 512-byte input decodes into its first 29 bytes
and the remaining 483 bytes. -/
theorem c2_share_new_valid_witness :
    Share.new (List.replicate 512 7)
      = .ok { ns := List.replicate 29 7, data := List.replicate 483 7 } := by
  have h := c2_share_new_valid (List.replicate 512 7) (by rw [List.length_replicate]; rfl)
  rw [h, List.take_replicate, List.drop_replicate]
  norm_num [NS_SIZE]

open CelestiaTypes in
/-- C3: `Share::new` followed by `Share::to_vec` is the identity on
`SHARE_SIZE`-length inputs: the namespace bytes followed by the payload
bytes reproduce the original input exactly. -/
theorem c3_share_roundtrip (bytes : List Nat) (s : Share)
    (hlen : bytes.length = SHARE_SIZE) (h : Share.new bytes = .ok s) :
    s.to_vec = bytes :=
  share_new_to_vec bytes s h

open CelestiaTypes in
/-- C3 witness: round trip evaluated on a concrete 512-byte input. -/
theorem c3_share_roundtrip_witness :
    Share.to_vec { ns := List.replicate 29 7, data := List.replicate 483 7 }
      = List.replicate 512 7 :=
  c3_share_roundtrip (List.replicate 512 7)
    { ns := List.replicate 29 7, data := List.replicate 483 7 }
    (by rw [List.length_replicate]; rfl)
    (by rw [share_new_eq_ok _ (by rw [List.length_replicate]; rfl)]
        rw [List.take_replicate, List.drop_replicate]
        norm_num [NS_SIZE])

/-! ## Helper lemmas on row decoding -/

namespace CelestiaTypes

/-- If some raw share has a wrong length, collecting fails with an
`InvalidShareSize` error carrying the length of such a share. -/
theorem collectShares_error_of_bad (l : List (List Nat))
    (h : ∃ s ∈ l, s.length ≠ SHARE_SIZE) :
    ∃ k, collectShares l = .error (.invalidShareSize k)
      ∧ ∃ s ∈ l, s.length = k ∧ k ≠ SHARE_SIZE := by
  induction l with
  | nil => simp at h
  | cons b rest ih =>
    by_cases hb : b.length = SHARE_SIZE
    · obtain ⟨s, hs, hsl⟩ := h
      rcases List.mem_cons.mp hs with hs | hs
      · exact absurd (by rw [hs]; exact hb) hsl
      · obtain ⟨k, hk, s', hs', hl', hne⟩ := ih ⟨s, hs, hsl⟩
        refine ⟨k, ?_, s', .tail _ hs', hl', hne⟩
        rw [collectShares, share_new_eq_ok b hb, hk]
    · refine ⟨b.length, ?_, b, .head _, rfl, hb⟩
      rw [collectShares, share_new_eq_error b hb]

/-- If every raw share has the right length, collecting succeeds. -/
theorem collectShares_ok_of_good (l : List (List Nat))
    (h : ∀ s ∈ l, s.length = SHARE_SIZE) :
    ∃ shares, collectShares l = .ok shares := by
  induction l with
  | nil => exact ⟨[], rfl⟩
  | cons b rest ih =>
    obtain ⟨shares, hs⟩ := ih fun s hs => h s (.tail _ hs)
    refine ⟨{ ns := b.take NS_SIZE, data := b.drop NS_SIZE } :: shares, ?_⟩
    rw [collectShares, share_new_eq_ok b (h b (.head _)), hs]

/-- A successful collection decodes the raw shares pointwise. -/
theorem collectShares_ok_inv (l : List (List Nat)) (shares : List Share)
    (h : collectShares l = .ok shares) :
    List.Forall₂ (fun b s => Share.new b = .ok s) l shares := by
  induction l generalizing shares with
  | nil =>
    rw [collectShares] at h
    injection h with h
    subst h
    exact .nil
  | cons b rest ih =>
    rw [collectShares] at h
    cases hb : Share.new b with
    | error e => rw [hb] at h; exact absurd h (by simp)
    | ok s =>
      rw [hb] at h
      cases hr : collectShares rest with
      | error e => rw [hr] at h; exact absurd h (by simp)
      | ok l' =>
        rw [hr] at h
        injection h with h
        subst h
        exact .cons hb (ih l' hr)

/-- Every share of a successful collection splits the corresponding raw
bytes: its namespace has exactly `NS_SIZE` bytes and its re-encoding is
the raw input. -/
theorem collectShares_shape (l : List (List Nat)) (shares : List Share)
    (h : collectShares l = .ok shares) :
    (∀ s ∈ shares, s.ns.length = NS_SIZE) ∧ shares.map Share.to_vec = l := by
  have hall := collectShares_ok_inv l shares h
  clear h
  induction hall with
  | nil => exact ⟨by simp, rfl⟩
  | cons hbs htail ih =>
    obtain ⟨ih1, ih2⟩ := ih
    constructor
    · intro s hs
      rcases List.mem_cons.mp hs with hs | hs
      · subst hs
        obtain ⟨hlen, hsplit⟩ := share_new_ok_inv _ _ hbs
        subst hsplit
        simp only [List.length_take, hlen]
        rw [NS_SIZE, SHARE_SIZE]
        omega
      · exact ih1 s hs
    · simp only [List.map_cons, ih2]
      rw [share_new_to_vec _ _ hbs]

end CelestiaTypes

/-! ## Claim C8 -/

open CelestiaTypes in
/-- C8 counterexample: a raw row whose proof field is absent but whose
single share is empty decodes to `InvalidShareSize 0`, not
`MissingProof` — the share errors are checked before the proof field.
The concrete proof conversion supplied here is irrelevant: the share
error is returned before the proof field or its conversion is ever
consulted (the parameterized theorem below holds for every
conversion). -/
theorem c8_counterexample :
    NamespacedRow.try_from (fun rp => .ok ⟨rp.tag⟩) { shares := [[]], proof := none }
        = .error (.invalidShareSize 0)
      ∧ ({ shares := [[]], proof := none } : RawRow).proof = none
      ∧ NamespacedRow.try_from (fun rp => .ok ⟨rp.tag⟩) { shares := [[]], proof := none }
          ≠ .error .missingProof := by
  refine ⟨?_, rfl, ?_⟩ <;>
    simp [NamespacedRow.try_from, collectShares, Share.new, SHARE_SIZE]

open CelestiaTypes in
/-- C8 (amended): decoding a `NamespacedRow` from a raw row fails with
`InvalidShareSize` whenever some share has a length other than
`SHARE_SIZE` (that error takes priority over the proof field), fails
with `MissingProof` when all shares are well-sized but the proof field
is absent, and on success every share's namespace has exactly `NS_SIZE`
bytes and converting the row back into a raw row reproduces each
share's original bytes.  Stated for every fallible proof conversion and
every reverse proof conversion, so nothing is assumed about the absent
nmt conversion code. -/
theorem c8_row_decode (convertProof : RawProof → Except Error NamespaceProof)
    (proofToRaw : NamespaceProof → RawProof) (r : RawRow) :
    ((∃ s ∈ r.shares, s.length ≠ SHARE_SIZE) →
      ∃ k, NamespacedRow.try_from convertProof r = .error (.invalidShareSize k)
        ∧ ∃ s ∈ r.shares, s.length = k ∧ k ≠ SHARE_SIZE)
    ∧ ((∀ s ∈ r.shares, s.length = SHARE_SIZE) → r.proof = none →
        NamespacedRow.try_from convertProof r = .error .missingProof)
    ∧ (∀ row, NamespacedRow.try_from convertProof r = .ok row →
        (∀ s ∈ row.shares, s.ns.length = NS_SIZE)
          ∧ (RawRow.from_namespaced_row proofToRaw row).shares = r.shares) := by
  refine ⟨?_, ?_, ?_⟩
  · intro h
    obtain ⟨k, hk, hw⟩ := collectShares_error_of_bad r.shares h
    exact ⟨k, by rw [NamespacedRow.try_from, hk], hw⟩
  · intro hgood hnone
    obtain ⟨shares, hs⟩ := collectShares_ok_of_good r.shares hgood
    rw [NamespacedRow.try_from, hs, hnone]
  · intro row hrow
    rw [NamespacedRow.try_from] at hrow
    cases hc : collectShares r.shares with
    | error e => rw [hc] at hrow; exact absurd hrow (by simp)
    | ok shares =>
      rw [hc] at hrow
      cases hp : r.proof with
      | none => rw [hp] at hrow; exact absurd hrow (by simp)
      | some rp =>
        rw [hp] at hrow
        have hrow' : (match convertProof rp with
            | Except.error e => Except.error e
            | Except.ok p => Except.ok { shares := shares, proof := p }
            : Except Error NamespacedRow) = Except.ok row := hrow
        cases hcv : convertProof rp with
        | error e => rw [hcv] at hrow'; exact absurd hrow' (by simp)
        | ok p =>
          rw [hcv] at hrow'
          injection hrow' with hrow'
          subst hrow'
          obtain ⟨hns, hmap⟩ := collectShares_shape r.shares shares hc
          exact ⟨hns, by rw [RawRow.from_namespaced_row]; simpa using hmap⟩

open CelestiaTypes in
/-- C8 witness: the amended theorem evaluated on a concrete raw row with
one well-sized share and a present proof, for concrete conversions. -/
theorem c8_row_decode_witness :
    (∀ s ∈ ({ shares := [{ ns := List.replicate 29 7, data := List.replicate 483 7 }],
              proof := ⟨0⟩ } : NamespacedRow).shares, s.ns.length = NS_SIZE)
      ∧ (RawRow.from_namespaced_row (fun p => ⟨p.tag⟩)
          { shares := [{ ns := List.replicate 29 7, data := List.replicate 483 7 }],
            proof := ⟨0⟩ }).shares
        = ({ shares := [List.replicate 512 7], proof := some ⟨0⟩ } : RawRow).shares :=
  (c8_row_decode (fun rp => .ok ⟨rp.tag⟩) (fun p => ⟨p.tag⟩)
      { shares := [List.replicate 512 7], proof := some ⟨0⟩ }).2.2
    { shares := [{ ns := List.replicate 29 7, data := List.replicate 483 7 }],
      proof := ⟨0⟩ }
    (by rw [NamespacedRow.try_from]
        have hb : Share.new (List.replicate 512 7)
            = .ok { ns := List.replicate 29 7, data := List.replicate 483 7 } := by
          rw [share_new_eq_ok _ (by rw [List.length_replicate]; rfl)]
          rw [List.take_replicate, List.drop_replicate]
          norm_num [NS_SIZE]
        rw [collectShares, hb, collectShares])

/-! ## Helper lemmas on the varint codec -/

namespace HeaderEx

/-- Decoding an encoded varint followed by anything returns the value and
the trailing bytes. -/
theorem decodeVarint_encodeVarint (n : Nat) (rest : List Nat) :
    decodeVarint (encodeVarint n ++ rest) = some (n, rest) := by
  induction n using Nat.strong_induction_on with
  | _ n ih =>
    rw [encodeVarint]
    by_cases h : n < 128
    · simp [h, decodeVarint]
    · have hdiv : n / 128 < n := Nat.div_lt_self (by omega) (by omega)
      simp only [h, dite_false, List.cons_append, decodeVarint]
      have hge : ¬(n % 128 + 128 < 128) := by omega
      simp only [hge, if_false, ih (n / 128) hdiv]
      have : n % 128 + 128 - 128 + 128 * (n / 128) = n := by
        have := Nat.mod_add_div n 128
        omega
      rw [this]

/-- Every byte of an encoded varint except the last carries the
continuation bit; in particular a strict prefix never decodes. -/
theorem decodeVarint_of_all_high (l : List Nat) (h : ∀ b ∈ l, 128 ≤ b) :
    decodeVarint l = none := by
  induction l with
  | nil => rfl
  | cons b rest ih =>
    have hb : ¬b < 128 := by
      have := h b (.head _)
      omega
    rw [decodeVarint]
    simp only [hb, if_false, ih fun x hx => h x (.tail _ hx)]

/-- All bytes of an encoded varint but the last carry the continuation
bit: a strict prefix consists of bytes at least 128. -/
theorem encodeVarint_take_high (n k : Nat)
    (h : k < (encodeVarint n).length) :
    ∀ b ∈ (encodeVarint n).take k, 128 ≤ b := by
  induction n using Nat.strong_induction_on generalizing k with
  | _ n ih =>
    rw [encodeVarint] at h ⊢
    by_cases hn : n < 128
    · simp only [hn, dite_true, List.length_cons, List.length_nil] at h
      interval_cases k
      simp
    · have hdiv : n / 128 < n := Nat.div_lt_self (by omega) (by omega)
      simp only [hn, dite_false, List.length_cons] at h ⊢
      cases k with
      | zero => simp
      | succ j =>
        intro b hb
        rw [List.take_succ_cons] at hb
        rcases List.mem_cons.mp hb with hb | hb
        · omega
        · exact ih (n / 128) hdiv j (by omega) b hb

/-- A varint never encodes to the empty list. -/
theorem encodeVarint_ne_nil (n : Nat) : encodeVarint n ≠ [] := by
  rw [encodeVarint]
  by_cases h : n < 128 <;> simp [h]

/-- The digit bound: values below `128 ^ k` need at most `k` varint
bytes. -/
theorem encodeVarint_length_le (k n : Nat) (hk : 1 ≤ k) (h : n < 128 ^ k) :
    (encodeVarint n).length ≤ k := by
  induction k generalizing n with
  | zero => omega
  | succ k ih =>
    rw [encodeVarint]
    by_cases hn : n < 128
    · simp [hn]
    · have hk' : 1 ≤ k := by
        rcases Nat.eq_zero_or_pos k with hk0 | hk0
        · subst hk0
          simp [pow_one] at h
          omega
        · exact hk0
      have hdiv : n / 128 < 128 ^ k := by
        rw [Nat.div_lt_iff_lt_mul (by omega)]
        calc n < 128 ^ (k + 1) := h
        _ = 128 ^ k * 128 := by ring
      simp only [hn, dite_false, List.length_cons]
      have := ih (n / 128) hk' hdiv
      omega

end HeaderEx


namespace HeaderEx

/-- The field loop on an exhausted buffer returns the accumulator, for
any fuel. -/
theorem parseFieldsAux_nil (fuel : Nat) (acc : HeaderRequest) :
    parseFieldsAux fuel [] acc = some acc := by
  cases fuel <;> rfl

/-- Parsing an encoded `amount` field fills in the amount, whatever the
data already accumulated. -/
theorem parseFieldsAux_encodeAmount (f a : Nat) (d : Option RequestData) :
    parseFieldsAux (f + 1) (encodeAmount a) { amount := 0, data := d }
      = some { amount := a, data := d } := by
  rw [encodeAmount]
  by_cases ha : a = 0
  · simp only [ha, if_true]
    exact parseFieldsAux_nil _ _
  · simp only [ha, if_false]
    have ha' : decodeVarint (encodeVarint a) = some (a, []) := by
      have := decodeVarint_encodeVarint a []
      simpa using this
    simp [parseFieldsAux, decodeVarint, ha', parseFieldsAux_nil]

/-- Parsing an encoded `data` field followed by an encoded `amount`
field recovers the whole message. -/
theorem parseFieldsAux_encode (f a : Nat) (d : RequestData) :
    parseFieldsAux (f + 2) (encodeData (some d) ++ encodeAmount a) defaultRequest
      = some { amount := a, data := some d } := by
  cases d with
  | origin hgt =>
    rw [encodeData, List.cons_append]
    simp only [parseFieldsAux, decodeVarint, Nat.lt_irrefl]
    norm_num
    rw [decodeVarint_encodeVarint hgt (encodeAmount a)]
    norm_num [defaultRequest]
    exact parseFieldsAux_encodeAmount f a _
  | head =>
    rw [encodeData, List.cons_append]
    simp only [parseFieldsAux, decodeVarint, Nat.lt_irrefl]
    norm_num
    rw [decodeVarint_encodeVarint 1 (encodeAmount a)]
    norm_num [defaultRequest]
    exact parseFieldsAux_encodeAmount f a _

/-- The encoded `data` oneof is at least two bytes when set. -/
theorem encodeData_length_ge (d : RequestData) :
    2 ≤ (encodeData (some d)).length := by
  cases d with
  | origin hgt =>
    have := encodeVarint_ne_nil hgt
    rw [encodeData]
    cases h : encodeVarint hgt with
    | nil => exact absurd h this
    | cons x xs => simp [h]
  | head =>
    have := encodeVarint_ne_nil 1
    rw [encodeData]
    cases h : encodeVarint 1 with
    | nil => exact absurd h this
    | cons x xs => simp [h]

/-- Length-delimited decoding inverts length-delimited encoding whenever
the `data` oneof is set. -/
theorem decode_encodeLengthDelimited (r : HeaderRequest) (d : RequestData)
    (hd : r.data = some d) :
    decodeLengthDelimited (encodeLengthDelimited r) = some r := by
  obtain ⟨a, rdata⟩ := r
  simp only at hd
  subst hd
  rw [encodeLengthDelimited, decodeLengthDelimited]
  rw [decodeVarint_encodeVarint]
  simp only [le_refl, if_true, List.take_length]
  rw [parseFields]
  have h2 : 2 ≤ (encodeData (some d) ++ encodeAmount a).length := by
    rw [List.length_append]
    have := encodeData_length_ge d
    omega
  obtain ⟨f, hf⟩ : ∃ f, (encodeData (some d) ++ encodeAmount a).length = f + 2 :=
    ⟨(encodeData (some d) ++ encodeAmount a).length - 2, by omega⟩
  rw [hf]
  exact parseFieldsAux_encode f a d

/-- A request with `u64` fields encodes, length prefix included, to at
most 23 bytes. -/
theorem encodeLengthDelimited_length_le (r : HeaderRequest)
    (ha : r.amount < 2 ^ 64)
    (hd : ∀ hgt, r.data = some (.origin hgt) → hgt < 2 ^ 64) :
    (encodeLengthDelimited r).length ≤ 23 := by
  have hv : ∀ n : Nat, n < 2 ^ 64 → (encodeVarint n).length ≤ 10 := by
    intro n hn
    refine encodeVarint_length_le 10 n (by omega) ?_
    calc n < 2 ^ 64 := hn
    _ ≤ 128 ^ 10 := by norm_num
  have hdata : (encodeData r.data).length ≤ 11 := by
    rcases hdd : r.data with _ | d
    · simp [encodeData]
    · cases d with
      | origin hgt =>
        have := hv hgt (hd hgt hdd)
        simp only [encodeData, List.length_cons]
        omega
      | head =>
        rw [encodeData]
        rw [encodeVarint]
        simp
  have hamount : (encodeAmount r.amount).length ≤ 11 := by
    rw [encodeAmount]
    by_cases h0 : r.amount = 0
    · simp [h0]
    · have := hv r.amount ha
      simp only [h0, if_false, List.length_cons]
      omega
  rw [encodeLengthDelimited]
  simp only [List.length_append]
  have hsum : (encodeData r.data).length + (encodeAmount r.amount).length < 128 := by
    omega
  have hlen : (encodeVarint ((encodeData r.data).length + (encodeAmount r.amount).length)).length
      = 1 := by
    rw [encodeVarint]
    simp [hsum]
  omega

end HeaderEx

namespace HeaderEx

/-- Varint length lower bound: a value of at least `128 ^ k` needs more
than `k` bytes. -/
theorem encodeVarint_length_gt (k : Nat) (n : Nat) (h : 128 ^ k ≤ n) :
    k < (encodeVarint n).length := by
  induction k generalizing n with
  | zero =>
    have := encodeVarint_ne_nil n
    cases he : encodeVarint n with
    | nil => exact absurd he this
    | cons x xs => simp [he]
  | succ k ih =>
    have hn : ¬n < 128 := by
      have h128 : (128 : Nat) ≤ 128 ^ (k + 1) := by
        calc (128 : Nat) = 128 ^ 1 := (pow_one 128).symm
        _ ≤ 128 ^ (k + 1) := Nat.pow_le_pow_right (by omega) (by omega)
      omega
    rw [encodeVarint]
    simp only [hn, dite_false, List.length_cons]
    have hdiv : 128 ^ k ≤ n / 128 := by
      rw [Nat.le_div_iff_mul_le (by omega)]
      calc 128 ^ k * 128 = 128 ^ (k + 1) := by ring
      _ ≤ n := h
    have := ih (n / 128) hdiv
    omega

/-- Truncated at the cap, a length-delimited message longer than the cap
never decodes: either the truncation cuts into the length prefix, or too
few payload bytes remain for the announced length. -/
theorem decodeLengthDelimited_too_long (body junk : List Nat)
    (hbig : REQUEST_SIZE_MAXIMUM
      < (encodeVarint body.length ++ body).length) :
    decodeLengthDelimited
        ((encodeVarint body.length ++ (body ++ junk)).take REQUEST_SIZE_MAXIMUM)
      = none := by
  rw [List.length_append] at hbig
  by_cases hA : (encodeVarint body.length).length ≤ REQUEST_SIZE_MAXIMUM
  · rw [List.take_append_eq_append_take, List.take_of_length_le hA]
    rw [decodeLengthDelimited, decodeVarint_encodeVarint]
    have hlt : ¬body.length
        ≤ ((body ++ junk).take
            (REQUEST_SIZE_MAXIMUM - (encodeVarint body.length).length)).length := by
      rw [List.length_take, List.length_append]
      rw [REQUEST_SIZE_MAXIMUM] at hbig hA ⊢
      omega
    simp only [hlt, if_false]
  · push_neg at hA
    rw [List.take_append_of_le_length (le_of_lt hA)]
    have hnone : decodeVarint ((encodeVarint body.length).take REQUEST_SIZE_MAXIMUM)
        = none := by
      refine decodeVarint_of_all_high _ ?_
      exact encodeVarint_take_high body.length REQUEST_SIZE_MAXIMUM hA
    rw [decodeLengthDelimited, hnone]

end HeaderEx

/-! ## Claims C4 - C6 -/

open HeaderEx in
/-- C4: writing any `HeaderRequest` whose data is `Origin(height)` or
`Head` with the codec's `write_request` and reading the bytes back with
`read_request` returns exactly the original message. -/
theorem c4_request_roundtrip (amount : Nat) (d : RequestData)
    (ha : amount < 2 ^ 64)
    (hh : ∀ hgt, d = .origin hgt → hgt < 2 ^ 64) :
    read_request (write_request { amount := amount, data := some d })
      = some { amount := amount, data := some d } := by
  rw [read_request, write_request]
  have hle : (encodeLengthDelimited { amount := amount, data := some d }).length
      ≤ REQUEST_SIZE_MAXIMUM := by
    have h23 := encodeLengthDelimited_length_le { amount := amount, data := some d }
      ha (fun hgt hd' => hh hgt (by simpa using hd'))
    rw [REQUEST_SIZE_MAXIMUM]
    omega
  rw [List.take_of_length_le hle]
  exact decode_encodeLengthDelimited _ d rfl

open HeaderEx in
/-- C4 witness: the round trip evaluated for `Origin(10)` with amount 5
and for `Head` with amount 1. -/
theorem c4_request_roundtrip_witness :
    read_request (write_request { amount := 5, data := some (.origin 10) })
        = some { amount := 5, data := some (.origin 10) }
      ∧ read_request (write_request { amount := 1, data := some .head })
        = some { amount := 1, data := some .head } :=
  ⟨c4_request_roundtrip 5 (.origin 10) (by norm_num)
      (fun hgt h => by cases h; norm_num),
    c4_request_roundtrip 1 .head (by norm_num)
      (fun hgt h => by cases h)⟩

open HeaderEx in
/-- C5 counterexample: a 1025-byte incoming stream strictly exceeding
`REQUEST_SIZE_MAXIMUM` whose first byte is a complete empty message
decodes successfully (the codec truncates rather than failing), so
"stream exceeds the cap implies the read fails with an error" is false
as stated. -/
theorem c5_counterexample :
    REQUEST_SIZE_MAXIMUM < ((0 : Nat) :: List.replicate 1024 0).length
      ∧ read_request ((0 : Nat) :: List.replicate 1024 0) = some defaultRequest := by
  constructor
  · rw [List.length_cons, List.length_replicate, REQUEST_SIZE_MAXIMUM]
    omega
  · rw [read_request, REQUEST_SIZE_MAXIMUM]
    have htake : ((0 : Nat) :: List.replicate 1024 0).take 1024
        = 0 :: List.replicate 1023 0 := by
      rw [show (1024 : Nat) = 1023 + 1 from rfl, List.take_succ_cons,
        List.take_replicate]
      norm_num
    rw [htake, decodeLengthDelimited]
    have hdv : decodeVarint (0 :: List.replicate 1023 0)
        = some (0, List.replicate 1023 0) := by
      rw [decodeVarint]
      norm_num
    rw [hdv]
    show (if 0 ≤ (List.replicate 1023 0).length
        then parseFields ((List.replicate (1023 : Nat) 0).take 0) defaultRequest
        else none)
      = some defaultRequest
    rw [List.length_replicate, if_pos (Nat.zero_le _), List.take_zero]
    rfl

open HeaderEx in
/-- C5 (amended): the request read truncates the incoming stream at
`REQUEST_SIZE_MAXIMUM`, so no successfully decoded message is ever built
from more than the cap's worth of bytes; a message whose length-delimited
encoding exceeds the cap always fails to decode; the request cap is the
fixed constant 1024, strictly smaller than the 10 MiB response cap. -/
theorem c5_read_cap :
    (∀ stream : List Nat,
        read_request stream = read_request (stream.take REQUEST_SIZE_MAXIMUM))
    ∧ (∀ (r : HeaderRequest) (junk : List Nat),
        REQUEST_SIZE_MAXIMUM < (write_request r).length →
        read_request (write_request r ++ junk) = none)
    ∧ REQUEST_SIZE_MAXIMUM = 1024
    ∧ RESPONSE_SIZE_MAXIMUM = 10 * 1024 * 1024
    ∧ REQUEST_SIZE_MAXIMUM < RESPONSE_SIZE_MAXIMUM := by
  refine ⟨?_, ?_, rfl, rfl, by rw [REQUEST_SIZE_MAXIMUM, RESPONSE_SIZE_MAXIMUM]; omega⟩
  · intro stream
    rw [read_request, read_request, List.take_take, min_self]
  · intro r junk hbig
    rw [write_request] at hbig ⊢
    simp only [encodeLengthDelimited] at hbig ⊢
    rw [read_request, List.append_assoc]
    exact decodeLengthDelimited_too_long
      (encodeData r.data ++ encodeAmount r.amount) junk hbig

open HeaderEx in
/-- C5 witness: the amended theorem applied to a request whose encoding
needs 1032 bytes (a height of 1030 varint digits), which therefore fails
to decode. -/
theorem c5_read_cap_witness :
    read_request
        (write_request { amount := 0, data := some (.origin (128 ^ 1029)) } ++ [])
      = none :=
  c5_read_cap.2.1 { amount := 0, data := some (.origin (128 ^ 1029)) } []
    (by rw [write_request]
        simp only [encodeLengthDelimited]
        rw [List.length_append]
        refine lt_of_lt_of_le ?_ (Nat.le_add_left _ _)
        rw [List.length_append, encodeData, List.length_cons]
        have h0 : encodeAmount 0 = [] := rfl
        rw [h0]
        have h1 : 1029 < (encodeVarint (128 ^ 1029)).length :=
          encodeVarint_length_gt 1029 (128 ^ 1029) le_rfl
        rw [REQUEST_SIZE_MAXIMUM, List.length_nil]
        omega)

open HeaderEx in
/-- C6: the HeaderEx protocol identifier is exactly
`/<network-name>/header-ex/v0.0.3`, and the construction is injective in
the network name, so different networks yield different identifiers. -/
theorem c6_protocol_id :
    (∀ network : String,
        exchange_protocol_id network = "/" ++ network ++ "/header-ex/v0.0.3")
    ∧ ∀ a b : String, exchange_protocol_id a = exchange_protocol_id b → a = b := by
  refine ⟨fun _ => rfl, fun a b h => ?_⟩
  rw [exchange_protocol_id, exchange_protocol_id] at h
  have hd := congrArg String.data h
  simp only [String.data_append] at hd
  have h1 := List.append_cancel_right hd
  have h2 := List.append_cancel_left h1
  cases a
  cases b
  exact congrArg String.mk h2

open HeaderEx in
/-- C6 witness: the identifier and the injectivity evaluated at the
network name "celestia". -/
theorem c6_protocol_id_witness :
    exchange_protocol_id "celestia" = "/celestia/header-ex/v0.0.3"
      ∧ "celestia" = "celestia" :=
  ⟨c6_protocol_id.1 "celestia", c6_protocol_id.2 "celestia" "celestia" rfl⟩

/-! ## Claims C9 and C10 -/

open Networks in
/-- C9: the CLI and wasm network enums convert to the core `Network`
enum and back as total mutually inverse bijections, each variant mapping
to the variant of the same name. -/
theorem c9_network_bijections :
    (∀ a : ArgNetwork, ArgNetwork.from_core (Network.from_arg a) = a)
    ∧ (∀ n : Network, Network.from_arg (ArgNetwork.from_core n) = n)
    ∧ (∀ w : WasmNetwork, WasmNetwork.from_core (Network.from_wasm w) = w)
    ∧ (∀ n : Network, Network.from_wasm (WasmNetwork.from_core n) = n)
    ∧ Network.from_arg .Mainnet = .Mainnet
    ∧ Network.from_arg .Arabica = .Arabica
    ∧ Network.from_arg .Mocha = .Mocha
    ∧ Network.from_arg .Private = .Private
    ∧ Network.from_wasm .Mainnet = .Mainnet
    ∧ Network.from_wasm .Arabica = .Arabica
    ∧ Network.from_wasm .Mocha = .Mocha
    ∧ Network.from_wasm .Private = .Private :=
  ⟨fun a => by cases a <;> rfl,
    fun n => by cases n <;> rfl,
    fun w => by cases w <;> rfl,
    fun n => by cases n <;> rfl,
    rfl, rfl, rfl, rfl, rfl, rfl, rfl, rfl⟩

open WasmUtils in
/-- C10: `resolve_dnsaddr_multiaddress` returns a non-dnsaddr address
unchanged as a one-element list; errors without resolving when a dnsaddr
address has no peer id component; and every address of a successful
dnsaddr resolution carries the same peer id as the input. -/
theorem c10_resolve_dnsaddr (parse : String → Option Multiaddr)
    (answer : List DohEntry) (ma : Multiaddr) :
    (get_dnsaddr ma = none →
      resolve_dnsaddr_multiaddress parse answer ma = .ok [ma])
    ∧ (get_dnsaddr ma ≠ none → get_peer_id ma = none →
      resolve_dnsaddr_multiaddress parse answer ma = .error .peerIdNotFound)
    ∧ (∀ l, get_dnsaddr ma ≠ none →
        resolve_dnsaddr_multiaddress parse answer ma = .ok l →
        ∀ m ∈ l, get_peer_id m = get_peer_id ma) := by
  refine ⟨?_, ?_, ?_⟩
  · intro hd
    unfold resolve_dnsaddr_multiaddress
    rw [hd]
  · intro hd hp
    cases hdd : get_dnsaddr ma with
    | none => exact absurd hdd hd
    | some name =>
      unfold resolve_dnsaddr_multiaddress
      rw [hdd, hp]
  · intro l hd hres m hm
    cases hdd : get_dnsaddr ma with
    | none => exact absurd hdd hd
    | some name =>
      rw [resolve_dnsaddr_multiaddress, hdd] at hres
      cases hp : get_peer_id ma with
      | none => rw [hp] at hres; exact absurd hres (by simp)
      | some pid =>
        rw [hp] at hres
        injection hres with hres
        subst hres
        obtain ⟨entry, _, hf⟩ := List.mem_filterMap.mp hm
        by_cases h16 : entry.rtype = TXT_TYPE
        · rw [if_pos h16] at hf
          cases hparse : parse entry.data with
          | none => rw [hparse] at hf; exact absurd hf (by simp)
          | some ma' =>
            rw [hparse] at hf
            by_cases hpeer : get_peer_id ma' = some pid
            · simp only [hpeer, if_true] at hf
              injection hf with hf
              subst hf
              simp [hpeer, hp]
            · simp [hpeer] at hf
        · rw [if_neg h16] at hf
          exact absurd hf (by simp)

open WasmUtils in
/-- C10 witness: evaluated for an address with only a peer id component
(no dnsaddr), which resolves to itself, and for a dnsaddr-bearing
address without a peer id, which errors. -/
theorem c10_resolve_dnsaddr_witness :
    resolve_dnsaddr_multiaddress (fun _ => none) [] [.p2p 1]
        = .ok [[.p2p 1]]
      ∧ resolve_dnsaddr_multiaddress (fun _ => none) [] [.dnsaddr "example.com"]
        = .error .peerIdNotFound :=
  ⟨(c10_resolve_dnsaddr (fun _ => none) [] [.p2p 1]).1 rfl,
    (c10_resolve_dnsaddr (fun _ => none) [] [.dnsaddr "example.com"]).2.1
      (by simp [get_dnsaddr, List.findSome?]) rfl⟩

/-! ## Helper lemmas on the node compromise model -/

namespace NodeModel

/-- Unfold one step of `run`. -/
theorem run_cons (s : NodeState) (i : NodeInput) (rest : List NodeInput) :
    run s (i :: rest) = (step s i).2 ++ run (step s i).1 rest := by
  cases hsi : step s i
  simp [run, hsi]

/-- A halted node ignores its input. -/
theorem step_halted (s : NodeState) (i : NodeInput) (h : s.halted = true) :
    step s i = (s, []) := by
  simp [step, h]

/-- A halted node never produces output again. -/
theorem run_halted (l : List NodeInput) (s : NodeState) (h : s.halted = true) :
    run s l = [] := by
  induction l with
  | nil => rfl
  | cons i rest ih =>
    rw [run_cons, step_halted s i h]
    exact ih

/-- Each step of a healthy node either stays healthy and emits no
compromise event, or emits exactly the compromise event and halts. -/
theorem step_spec (s : NodeState) (i : NodeInput) (hs : s.halted = false) :
    ((step s i).1.halted = false
        ∧ NodeOutput.networkCompromised ∉ (step s i).2)
      ∨ ((step s i).2 = [NodeOutput.networkCompromised]
        ∧ (step s i).1.halted = true) := by
  cases i with
  | fetchRequest h => left; constructor <;> simp [step, hs]
  | sampleRequest r c => left; constructor <;> simp [step, hs]
  | proofResult r c p outcome =>
    cases outcome with
    | valid => left; constructor <;> simp [step, hs]
    | unavailable => left; constructor <;> simp [step, hs]
    | rootMismatch =>
      cases hl : s.badProofs.lookup (r, c) with
      | none => left; constructor <;> simp [step, hs, hl]
      | some q =>
        by_cases hqp : q = p
        · left; constructor <;> simp [step, hs, hl, hqp]
        · right; constructor <;> simp [step, hs, hl, hqp]

/-- A non-halting step preserves every recorded bad-proof entry. -/
theorem step_preserves_lookup (s : NodeState) (i : NodeInput)
    (r c p' : Nat) (hs : s.halted = false)
    (hl : s.badProofs.lookup (r, c) = some p')
    (hnt : (step s i).1.halted = false) :
    (step s i).1.badProofs.lookup (r, c) = some p' := by
  cases i with
  | fetchRequest h => simpa [step, hs] using hl
  | sampleRequest r2 c2 => simpa [step, hs] using hl
  | proofResult r2 c2 p outcome =>
    cases outcome with
    | valid => simpa [step, hs] using hl
    | unavailable => simpa [step, hs] using hl
    | rootMismatch =>
      cases hl2 : s.badProofs.lookup (r2, c2) with
      | none =>
        have hne : ((r, c) : Nat × Nat) ≠ (r2, c2) := by
          intro heq
          rw [heq, hl2] at hl
          exact Option.noConfusion hl
        simp only [step, hs, Bool.false_eq_true, if_false, hl2]
        simp only [List.lookup, beq_eq_false_iff_ne.mpr hne]
        exact hl
      | some q =>
        by_cases hqp : q = p
        · simpa [step, hs, hl2, hqp] using hl
        · exfalso
          simp [step, hs, hl2, hqp] at hnt

/-- If a coordinate already has a recorded bad proof from peer `p'` and
the input trace still contains a root-mismatching proof for it from a
different peer, the compromise event is emitted. -/
theorem lookup_bad_emits (l : List NodeInput) (s : NodeState)
    (r c p' q : Nat) (hs : s.halted = false)
    (hl : s.badProofs.lookup (r, c) = some p') (hq : q ≠ p')
    (hmem : NodeInput.proofResult r c q .rootMismatch ∈ l) :
    NodeOutput.networkCompromised ∈ run s l := by
  induction l generalizing s with
  | nil => cases hmem
  | cons i rest ih =>
    rw [run_cons, List.mem_append]
    rcases List.mem_cons.mp hmem with hi | hmem'
    · left
      subst hi
      have hne : p' ≠ q := fun h => hq h.symm
      simp [step, hs, hl, hne]
    · rcases step_spec s i hs with ⟨hh, _⟩ | ⟨hout, _⟩
      · right
        exact ih (step s i).1 hh (step_preserves_lookup s i r c p' hs hl hh) hmem'
      · left
        rw [hout]
        exact List.mem_singleton.mpr rfl

/-- Once the trace contains a first root-mismatching proof for a
coordinate and, later, a second one from a different peer, the node
emits the compromise event. -/
theorem trigger_emits (l1 l2 : List NodeInput) (s : NodeState)
    (r c p1 p2 : Nat) (hs : s.halted = false) (hp : p1 ≠ p2)
    (hmem : NodeInput.proofResult r c p2 .rootMismatch ∈ l2) :
    NodeOutput.networkCompromised
      ∈ run s (l1 ++ NodeInput.proofResult r c p1 .rootMismatch :: l2) := by
  induction l1 generalizing s with
  | nil =>
    rw [List.nil_append, run_cons, List.mem_append]
    cases hl : s.badProofs.lookup (r, c) with
    | none =>
      right
      refine lookup_bad_emits l2 _ r c p1 p2 ?_ ?_ (fun h => hp h.symm) hmem
      · simp [step, hs, hl]
      · simp [step, hs, hl, List.lookup]
    | some q =>
      by_cases hqp : q = p1
      · right
        subst hqp
        refine lookup_bad_emits l2 _ r c q p2 ?_ ?_ (fun h => hp h.symm) hmem
        · simp [step, hs, hl]
        · simpa [step, hs, hl] using hl
      · left
        simp [step, hs, hl, hqp]
  | cons i l1' ih =>
    rw [List.cons_append, run_cons, List.mem_append]
    rcases step_spec s i hs with ⟨hh, _⟩ | ⟨hout, _⟩
    · right
      exact ih (step s i).1 hh
    · left
      rw [hout]
      exact List.mem_singleton.mpr rfl

/-- When the compromise event occurs at all, it is the final output of
the whole run and occurs exactly once. -/
theorem event_last (l : List NodeInput) (s : NodeState)
    (hs : s.halted = false)
    (he : NodeOutput.networkCompromised ∈ run s l) :
    ∃ pre, run s l = pre ++ [NodeOutput.networkCompromised]
      ∧ NodeOutput.networkCompromised ∉ pre := by
  induction l generalizing s with
  | nil => cases he
  | cons i rest ih =>
    rw [run_cons] at he ⊢
    rcases step_spec s i hs with ⟨hh, hno⟩ | ⟨hout, hhalt⟩
    · rcases List.mem_append.mp he with hin | hin
      · exact absurd hin hno
      · obtain ⟨pre, hpre, hnot⟩ := ih (step s i).1 hh hin
        refine ⟨(step s i).2 ++ pre, ?_, ?_⟩
        · rw [hpre, List.append_assoc]
        · rw [List.mem_append]
          rintro (h | h)
          · exact hno h
          · exact hnot h
    · refine ⟨[], ?_, by simp⟩
      rw [hout, run_halted rest _ hhalt]
      rfl

end NodeModel

/-! ## Claim C7 -/

open NodeModel in
/-- C7: when the input trace contains root-mismatching proofs for the
same coordinate from two independent peers, the node emits
`NetworkCompromised` exactly once and it is the last output the model
ever produces — afterwards neither fetch nor sample activity occurs. -/
theorem c7_network_compromised (l1 l2 : List NodeInput) (r c p1 p2 : Nat)
    (hp : p1 ≠ p2)
    (hmem : NodeInput.proofResult r c p2 .rootMismatch ∈ l2) :
    (run initState
        (l1 ++ NodeInput.proofResult r c p1 .rootMismatch :: l2)).count
          NodeOutput.networkCompromised = 1
      ∧ (run initState
          (l1 ++ NodeInput.proofResult r c p1 .rootMismatch :: l2)).getLast?
        = some NodeOutput.networkCompromised := by
  have hmem' := trigger_emits l1 l2 initState r c p1 p2 rfl hp hmem
  obtain ⟨pre, hpre, hnot⟩ := event_last _ initState rfl hmem'
  rw [hpre]
  constructor
  · rw [List.count_append]
    rw [List.count_eq_zero.mpr hnot]
    simp
  · exact List.getLast?_concat _

open NodeModel in
/-- C7 witness: a concrete two-observation trace — mismatching proofs
for coordinate (0, 1) from peers 5 and 8 — produces exactly the one
compromise event as its last output. -/
theorem c7_network_compromised_witness :
    (run initState
        [NodeInput.proofResult 0 1 5 .rootMismatch,
          NodeInput.proofResult 0 1 8 .rootMismatch]).count
          NodeOutput.networkCompromised = 1
      ∧ (run initState
          [NodeInput.proofResult 0 1 5 .rootMismatch,
            NodeInput.proofResult 0 1 8 .rootMismatch]).getLast?
        = some NodeOutput.networkCompromised :=
  c7_network_compromised [] [NodeInput.proofResult 0 1 8 .rootMismatch]
    0 1 5 8 (by decide) (List.mem_singleton.mpr rfl)
